import Mathlib

/-!
Verification of the MyAppLauncher registry-store data model
(`src/app_launcher.py`), shallowly embedded in Lean 4.

The program keeps one JSON document `{apps, groups, active_group_id}` on
disk.  Pure data-model logic (loading with fallback, registering apps,
adding/removing/toggling group entries, deleting groups, launch
dispatching with de-duplication) is embedded as executable Lean
functions; filesystem existence checks and OS process spawns are
passed in as oracle parameters (`ex : String → Bool`,
`spawn : String → Option String`), since they are the only effectful
calls the embedded code makes.
-/

namespace AppLauncher

/-- Constant `DEFAULT_GROUP_NAME` from the source. -/
def DEFAULT_GROUP_NAME : String := "默认"

/-- Split a character list at separator characters (keeping empty
chunks, like `str.split`). -/
def splitChars (sep : Char → Bool) : List Char → List (List Char)
  | [] => [[]]
  | c :: rest =>
    if sep c then [] :: splitChars sep rest
    else
      match splitChars sep rest with
      | [] => [[c]]
      | g :: gs => (c :: g) :: gs

/-- The last path component, as `pathlib.PurePath.name`: split on the
separators (`/`, and `\` on Windows paths), drop empty components, take
the last one. -/
def fileName (p : String) : String :=
  ⟨((((splitChars (fun c => c = '/' || c = '\\') p.toList)).filter (· ≠ [])).getLast?).getD []⟩

/-- Index of the last occurrence of `'.'` in a character list, if any. -/
def lastDotIdx (cs : List Char) : Option Nat :=
  ((List.range cs.length).filter (fun i => cs.get? i = some '.')).getLast?

/-- Python `pathlib.PurePath.stem`: the final component without its suffix.
The suffix is cut only when the last dot sits strictly inside the name
(`0 < i < len - 1`), exactly as in `pathlib`'s implementation. -/
def stem (p : String) : String :=
  let cs := (fileName p).toList
  match lastDotIdx cs with
  | some i => if 0 < i ∧ i < cs.length - 1 then ⟨cs.take i⟩ else ⟨cs⟩
  | none => ⟨cs⟩

/-- One value of the `apps` registry: `{"path": ..., "name": ...}`. -/
structure AppInfo where
  path : String
  name : String
deriving DecidableEq, Repr

/-- The global `apps` registry: a JSON object, i.e. an insertion-ordered
mapping from path keys to `AppInfo`, modelled as an association list. -/
abbrev Apps := List (String × AppInfo)

/-- One element of a group's `entries` list:
`{"path": ..., "enabled": ...}`.  The `enabled` key may be absent from a
stored record, hence `Option Bool`; every reader applies the default
`True` (`entry.get("enabled", True)`). -/
structure Entry where
  path : String
  enabled : Option Bool
deriving DecidableEq, Repr

/-- Read `entry.get("enabled", True)` — the default every reader applies. -/
def Entry.isEnabled (e : Entry) : Bool := e.enabled.getD true

/-- One element of the `groups` list. -/
structure Group where
  id : String
  name : String
  entries : List Entry
deriving DecidableEq, Repr

/-- The whole persisted document (typed view used by the operations). -/
structure Doc where
  apps : Apps
  groups : List Group
  active_group_id : String
deriving DecidableEq, Repr

/-- Replace the element at index `i` by `f` of it; out-of-range indices
leave the list unchanged (Python mutates `groups[i]` in place). -/
def modifyIdx {α : Type} (l : List α) (i : Nat) (f : α → α) : List α :=
  match l.get? i with
  | some a => l.set i (f a)
  | none => l

/-- Registration step of `MainWindow._on_files_dropped`:
`if path not in self.data["apps"]: self.data["apps"][path] = {"path": path, "name": Path(path).stem}`. -/
def register (apps : Apps) (p : String) : Apps :=
  if (apps.lookup p).isSome then apps
  else apps ++ [(p, ⟨p, stem p⟩)]

/-- Python `str.strip()`: drop whitespace from both ends. -/
def pyStrip (s : String) : String :=
  ⟨((s.toList.dropWhile Char.isWhitespace).reverse.dropWhile Char.isWhitespace).reverse⟩

/-- Handler `MainWindow._rename_app`: only acts when the stripped name is
non-empty (`if ok and name.strip():`); creates the registry record when
the path is unknown, otherwise updates its `name` in place. -/
def rename_app (apps : Apps) (p : String) (rawName : String) : Apps :=
  if pyStrip rawName = "" then apps
  else if (apps.lookup p).isSome then
    apps.map (fun kv => if kv.1 = p then (kv.1, { kv.2 with name := pyStrip rawName }) else kv)
  else apps ++ [(p, ⟨p, pyStrip rawName⟩)]

/-- Function `launch_path` (src/app_launcher.py:129–140).  The two effectful
calls are oracles: `ex p` is `Path(p).exists()`, and `spawn p` is the
`os.startfile`/`Popen` call — `none` when it returns normally, `some msg`
when it raises an exception whose `str(...)` is `msg` (the `except`
clause turns it into a returned string, so nothing propagates). -/
def launch_path (ex : String → Bool) (spawn : String → Option String) (p : String) :
    Option String :=
  if ex p = false then some "文件不存在"
  else spawn p

/-- Failure label used by `MainWindow._do_launch`:
`self.data["apps"].get(path, {}).get("name") or path` (note: the bare
path, not the stem, is the fallback here). -/
def nameForLaunch (apps : Apps) (p : String) : String :=
  match apps.lookup p with
  | some info => if info.name = "" then p else info.name
  | none => p

/-- Loop of `MainWindow._do_launch`, instrumented: besides the
`(launched, failed)` accumulators of the source it also returns the list
of paths on which `launch_path` was invoked, in invocation order. -/
def do_launch_aux (launch : String → Option String) (apps : Apps)
    (launched : Nat) (failed : List String) (seen : List String) :
    List String → Nat × List String × List String
  | [] => (launched, failed, [])
  | p :: rest =>
    if seen.contains p then do_launch_aux launch apps launched failed seen rest
    else
      match launch p with
      | some err =>
        let r := do_launch_aux launch apps launched
          (failed ++ [nameForLaunch apps p ++ ": " ++ err]) (p :: seen) rest
        (r.1, r.2.1, p :: r.2.2)
      | none =>
        let r := do_launch_aux launch apps (launched + 1) failed (p :: seen) rest
        (r.1, r.2.1, p :: r.2.2)

/-- Method `MainWindow._do_launch`: returns `(launched, failed)`. -/
def do_launch (launch : String → Option String) (apps : Apps) (paths : List String) :
    Nat × List String :=
  ((do_launch_aux launch apps 0 [] [] paths).1, (do_launch_aux launch apps 0 [] [] paths).2.1)

/-- The paths `MainWindow._do_launch` hands to `launch_path`, in order. -/
def do_launch_calls (launch : String → Option String) (apps : Apps)
    (paths : List String) : List String :=
  (do_launch_aux launch apps 0 [] [] paths).2.2

/-- First-occurrence de-duplication, skipping anything in `seen`
(the `seen` set discipline of `_do_launch` / `_launch_all_groups`). -/
def dedupNotSeen (seen : List String) : List String → List String
  | [] => []
  | p :: rest =>
    if seen.contains p then dedupNotSeen seen rest
    else p :: dedupNotSeen (p :: seen) rest

/-- Specification-side first-seen de-duplication: keep the head, delete
its later copies from the de-duplicated tail. -/
def dedupFS : List String → List String
  | [] => []
  | p :: rest => p :: (dedupFS rest).filter (fun q => q ≠ p)

/-- Loop body of `MainWindow._on_files_dropped`: register each dropped
path globally, then append it to the current group unless its path is
already in `existing_in_group` (initialised from the group's entries and
extended as entries are appended). -/
def dropAux (apps : Apps) (entries : List Entry) (seen : List String) :
    List String → Apps × List Entry
  | [] => (apps, entries)
  | p :: rest =>
    let apps1 := register apps p
    if seen.contains p then dropAux apps1 entries seen rest
    else dropAux apps1 (entries ++ [⟨p, some true⟩]) (p :: seen) rest

/-- Handler `MainWindow._on_files_dropped` restricted to its data mutation:
returns the updated registry and the updated current group. -/
def on_files_dropped (apps : Apps) (g : Group) (paths : List String) : Apps × Group :=
  let r := dropAux apps g.entries (g.entries.map (fun e => e.path)) paths
  (r.1, { g with entries := r.2 })

/-- Method `MainWindow._add_to_group`: unconditionally appends
`{"path": path, "enabled": True}` to the target group. -/
def add_to_group (g : Group) (p : String) : Group :=
  { g with entries := g.entries ++ [⟨p, some true⟩] }

/-- The "添加到其他分组" context-menu action: the menu item is disabled
when `any(e["path"] == path for e in g["entries"])`, so `_add_to_group`
only runs when the path is not yet in the target group. -/
def menu_add_to_group (g : Group) (p : String) : Group :=
  if g.entries.any (fun e => e.path = p) then g else add_to_group g p

/-- The add operations Claim C2 ranges over, lifted to the document:
a drop onto the group at index `gi`, or a context-menu add to it. -/
inductive AddOp where
  | drop (gi : Nat) (paths : List String)
  | menuAdd (gi : Nat) (p : String)

/-- Apply one add operation to the document. -/
def applyAdd (d : Doc) : AddOp → Doc
  | .drop gi paths =>
    match d.groups.get? gi with
    | some g =>
      let r := on_files_dropped d.apps g paths
      { d with apps := r.1, groups := d.groups.set gi r.2 }
    | none => d
  | .menuAdd gi p =>
    { d with groups := modifyIdx d.groups gi (fun g => menu_add_to_group g p) }

/-- Body of `MainWindow._delete_group` on the `Yes` path: pop the group
at `idx`; if groups remain, point `active_group_id` at the first one. -/
def delete_group_raw (d : Doc) (idx : Nat) : Doc :=
  let gs := d.groups.eraseIdx idx
  { d with
    groups := gs,
    active_group_id := match gs.head? with
                       | some g => g.id
                       | none => d.active_group_id }

/-- Group deletion as reachable through the view layer: both the 删除组
button (`_update_status` disables it when `len(groups) <= 1`) and the
tab context menu (shown only when `len(groups) > 1`) refuse to delete
the last remaining group. -/
def delete_group (d : Doc) (idx : Nat) : Doc :=
  if d.groups.length ≤ 1 then d else delete_group_raw d idx

/-- Method `MainWindow._toggle_entry`:
`entries[idx]["enabled"] = not entries[idx].get("enabled", True)`. -/
def toggle_entry (g : Group) (idx : Nat) : Group :=
  { g with entries := (modifyIdx g.entries idx
      (fun e => { e with enabled := some (!(e.enabled.getD true)) })) }

/-- Method `MainWindow._remove_from_group` on the document:
`group["entries"].pop(idx)`; nothing else in the document is touched. -/
def remove_from_group (d : Doc) (gi : Nat) (idx : Nat) : Doc :=
  { d with groups := (modifyIdx d.groups gi
      (fun g => { g with entries := g.entries.eraseIdx idx })) }

/-- Display name used by `GroupAppList.populate` and `_rename_app`:
`apps_registry.get(path, {}).get("name") or Path(path).stem`. -/
def nameForRender (apps : Apps) (p : String) : String :=
  match apps.lookup p with
  | some info => if info.name = "" then stem p else info.name
  | none => stem p

/-- One list item as built by `GroupAppList.populate`: the displayed
text and the `enabled` flag stored in the item's user data. -/
def renderEntry (apps : Apps) (e : Entry) : String × Bool :=
  let name := nameForRender apps e.path
  let enabled := e.enabled.getD true
  ((if enabled then name else "[禁用]  " ++ name), enabled)

/-- The enabled-count of `MainWindow._update_status`:
`sum(1 for e in group["entries"] if e.get("enabled", True))`. -/
def enabledCount (g : Group) : Nat :=
  (g.entries.filter (fun e => e.enabled.getD true)).length

/-- The paths `MainWindow._launch_current_group` collects:
`[e["path"] for e in group["entries"] if e.get("enabled", True)]`. -/
def currentGroupPaths (g : Group) : List String :=
  (g.entries.filter (fun e => e.enabled.getD true)).map (fun e => e.path)

/-- Collection loop of `MainWindow._launch_all_groups` over the
concatenated entries of all groups, with its `seen` set. -/
def allGroupsPathsAux (seen : List String) : List Entry → List String
  | [] => []
  | e :: rest =>
    if e.enabled.getD true && !(seen.contains e.path)
    then e.path :: allGroupsPathsAux (e.path :: seen) rest
    else allGroupsPathsAux seen rest

/-- The paths `MainWindow._launch_all_groups` collects: enabled entries
of every group, globally de-duplicated, in group-then-position order. -/
def allGroupsPaths (d : Doc) : List String :=
  allGroupsPathsAux [] ((d.groups.map (fun g => g.entries)).flatten)

/-! ## The on-disk document and `load_data`

`load_data` handles raw JSON before any typing is known, so it is
embedded over a small JSON value type.  The state of the data file is an
oracle: missing, unreadable (`open`/`json.load` raised — corrupt JSON or
an I/O error, both landing in the `except` clause), or parsed to a JSON
value. -/

/-- A JSON value (`json.load` result). -/
inductive JValue where
  | null
  | bool (b : Bool)
  | num (n : Int)
  | str (s : String)
  | arr (elems : List JValue)
  | obj (fields : List (String × JValue))
deriving Repr

/-- State of `DATA_FILE` when `load_data` runs. -/
inductive Disk where
  | missing
  | unreadable
  | parsed (v : JValue)

/-- Python dict assignment `d[k] = v` on a JSON object: replace the
binding in place if the key exists, else append it. -/
def setField (fs : List (String × JValue)) (k : String) (v : JValue) :
    List (String × JValue) :=
  if (fs.lookup k).isSome then fs.map (fun kv => if kv.1 = k then (k, v) else kv)
  else fs ++ [(k, v)]

/-- Helper `_new_group(name)` as the JSON object it produces; the fresh
`uuid.uuid4()` string is an oracle parameter. -/
def new_group_json (gid : String) (name : String) : JValue :=
  .obj [("id", .str gid), ("name", .str name), ("entries", .arr [])]

/-- The freshly initialized document `load_data` falls back to:
`{"apps": {}, "groups": [g], "active_group_id": g["id"]}`. -/
def fresh_data (gid : String) : JValue :=
  .obj [("apps", .obj []),
        ("groups", .arr [new_group_json gid DEFAULT_GROUP_NAME]),
        ("active_group_id", .str gid)]

/-- Function `load_data` (src/app_launcher.py:93–107).  A parsed value is kept
only when it is a dict containing the key `"groups"`; its `"apps"` field
is coerced to `{}` unless it is a dict.  Every other disk state falls
back to `fresh_data`.  The function is total: no disk state makes it
raise. -/
def load_data (gid : String) : Disk → JValue
  | .missing => fresh_data gid
  | .unreadable => fresh_data gid
  | .parsed v =>
    match v with
    | .obj fields =>
      if (fields.lookup "groups").isSome then
        .obj (match fields.lookup "apps" with
              | some (.obj _) => fields
              | _ => setField fields "apps" (.obj []))
      else fresh_data gid
    | _ => fresh_data gid

/-- The disk states on which `load_data` falls back to a fresh
document: missing file, unreadable/corrupt file, or a parsed value that
is not a dict or lacks the required `"groups"` key. -/
def fallbackDisk : Disk → Prop
  | .missing => True
  | .unreadable => True
  | .parsed (.obj fields) => fields.lookup "groups" = none
  | .parsed _ => True

/-- Field access on a JSON object value. -/
def jget (v : JValue) (k : String) : Option JValue :=
  match v with
  | .obj fields => fields.lookup k
  | _ => none

/-- Number of bindings for key `p` in an association list. -/
def countKey {β : Type} (l : List (String × β)) (p : String) : Nat :=
  (l.filter (fun kv => kv.1 == p)).length

/-! ## Helper lemmas -/

lemma lookup_append_single {β : Type} (l : List (String × β)) (p : String) (v : β)
    (h : l.lookup p = none) : (l ++ [(p, v)]).lookup p = some v := by
  simp [List.lookup_append, h]

lemma countKey_eq_zero {β : Type} {l : List (String × β)} {p : String}
    (h : l.lookup p = none) : countKey l p = 0 := by
  rw [List.lookup_eq_none_iff] at h
  simp only [countKey, List.length_eq_zero, List.filter_eq_nil_iff]
  intro kv hkv
  have hne := h kv hkv
  simp only [bne_iff_ne] at hne
  simp only [beq_iff_eq]
  exact fun hc => hne hc.symm

lemma countKey_append {β : Type} (l₁ l₂ : List (String × β)) (p : String) :
    countKey (l₁ ++ l₂) p = countKey l₁ p + countKey l₂ p := by
  simp [countKey, List.filter_append]

lemma modifyIdx_get_self {α : Type} {l : List α} {i : Nat} {a : α} (f : α → α)
    (h : l.get? i = some a) : (modifyIdx l i f).get? i = some (f a) := by
  have hi : i < l.length := by
    by_contra hge
    rw [List.get?_eq_none.2 (Nat.le_of_not_lt hge)] at h
    exact Option.noConfusion h
  unfold modifyIdx
  rw [h]
  simp [List.get?_eq_getElem?, List.getElem?_set_self hi]

lemma modifyIdx_get_other {α : Type} (l : List α) (i : Nat) (f : α → α)
    {j : Nat} (h : j ≠ i) : (modifyIdx l i f).get? j = l.get? j := by
  unfold modifyIdx
  cases hl : l.get? i with
  | none => rfl
  | some a => simp [List.get?_eq_getElem?, List.getElem?_set_ne (Ne.symm h)]

/-! ## Claims -/

/-- Claim C5: `launch_path` returns the `NotFound` error `"文件不存在"` exactly
when `Path(path).exists()` is false at call time; otherwise the result is
whatever the platform `open` call produced: `none` (success, the call does
not wait for the process) or the captured exception message — captured as
a returned string, never propagated (the embedded function is total). -/
theorem launch_path_spec (ex : String → Bool) (spawn : String → Option String)
    (p : String) :
    (ex p = false → launch_path ex spawn p = some "文件不存在") ∧
    (ex p = true → launch_path ex spawn p = spawn p) ∧
    (launch_path ex spawn p = none ↔ ex p = true ∧ spawn p = none) := by
  unfold launch_path
  cases h : ex p <;> simp

/-- Witness for C5 at concrete oracles. -/
theorem launch_path_spec_witness :
    launch_path (fun _ => false) (fun _ => none) "C:\\x.exe" = some "文件不存在" ∧
    launch_path (fun _ => true) (fun _ => some "boom") "C:\\x.exe" = some "boom" := by
  refine ⟨(launch_path_spec (fun _ => false) (fun _ => none) "C:\\x.exe").1 rfl, ?_⟩
  exact (launch_path_spec (fun _ => true) (fun _ => some "boom") "C:\\x.exe").2.1 rfl

/-- Claim C6: `register` is idempotent: registering an absent path appends
one registry binding keyed by the path, named by the filename stem;
registering it again is a no-op, leaving exactly one binding that still
carries the first registration's name. -/
theorem register_idempotent (apps : Apps) (p : String)
    (h : apps.lookup p = none) :
    register apps p = apps ++ [(p, ⟨p, stem p⟩)] ∧
    (register apps p).lookup p = some ⟨p, stem p⟩ ∧
    countKey (register apps p) p = 1 ∧
    register (register apps p) p = register apps p := by
  have h1 : register apps p = apps ++ [(p, ⟨p, stem p⟩)] := by
    simp [register, h]
  have h2 : (register apps p).lookup p = some ⟨p, stem p⟩ := by
    rw [h1]; exact lookup_append_single apps p _ h
  refine ⟨h1, h2, ?_, ?_⟩
  · rw [h1, countKey_append, countKey_eq_zero h]
    simp [countKey]
  · conv_lhs => rw [register]
    rw [h2]
    simp

/-- Witness for C6 at a concrete registry. -/
theorem register_idempotent_witness :
    register (register [] "a/b.exe") "a/b.exe" = register [] "a/b.exe" ∧
    countKey (register [] "a/b.exe") "a/b.exe" = 1 :=
  ⟨(register_idempotent [] "a/b.exe" rfl).2.2.2,
   (register_idempotent [] "a/b.exe" rfl).2.2.1⟩

/-- Claim C9: `_rename_app` on a path absent from the registry (with a
non-empty stripped name) creates a registry binding for that path with
the given name — rename acts as registration, not a failure or no-op. -/
theorem rename_app_unknown_registers (apps : Apps) (p rawName : String)
    (h1 : apps.lookup p = none) (h2 : pyStrip rawName ≠ "") :
    rename_app apps p rawName = apps ++ [(p, ⟨p, pyStrip rawName⟩)] ∧
    (rename_app apps p rawName).lookup p = some ⟨p, pyStrip rawName⟩ := by
  have he : rename_app apps p rawName = apps ++ [(p, ⟨p, pyStrip rawName⟩)] := by
    simp [rename_app, h1, h2]
  exact ⟨he, by rw [he]; exact lookup_append_single apps p _ h1⟩

/-- Witness for C9 at a concrete registry. -/
theorem rename_app_unknown_registers_witness :
    (rename_app [] "C:\\x.exe" " My App ").lookup "C:\\x.exe" =
      some ⟨"C:\\x.exe", "My App"⟩ := by
  have h := (rename_app_unknown_registers [] "C:\\x.exe" " My App " rfl (by decide)).2
  exact h.trans (by decide)

/-- Claim C7: removing the entry at a valid index from a group deletes
exactly that entry (the remaining entries are the ones before it and the
ones after it, in order) and is a frame for everything else: the global
apps registry, the other groups, and the active pointer are unchanged. -/
theorem remove_from_group_spec (d : Doc) (gi idx : Nat) (g : Group)
    (hg : d.groups.get? gi = some g) :
    (remove_from_group d gi idx).apps = d.apps ∧
    (remove_from_group d gi idx).groups.get? gi =
      some { g with entries := g.entries.take idx ++ g.entries.drop (idx + 1) } ∧
    (∀ j, j ≠ gi → (remove_from_group d gi idx).groups.get? j = d.groups.get? j) ∧
    (remove_from_group d gi idx).active_group_id = d.active_group_id := by
  refine ⟨rfl, ?_, ?_, rfl⟩
  · have := modifyIdx_get_self
      (fun g => { g with entries := g.entries.eraseIdx idx }) hg
    rw [remove_from_group]
    simpa [List.eraseIdx_eq_take_drop_succ] using this
  · intro j hj
    exact modifyIdx_get_other _ _ _ hj

/-- Witness for C7: removing index 0 from a two-entry group. -/
theorem remove_from_group_spec_witness :
    (remove_from_group
        ⟨[("A", ⟨"A", "a"⟩)],
         [⟨"g1", "G", [⟨"A", some true⟩, ⟨"B", none⟩]⟩], "g1"⟩ 0 0).apps =
      [("A", ⟨"A", "a"⟩)] ∧
    (remove_from_group
        ⟨[("A", ⟨"A", "a"⟩)],
         [⟨"g1", "G", [⟨"A", some true⟩, ⟨"B", none⟩]⟩], "g1"⟩ 0 0).groups.get? 0 =
      some ⟨"g1", "G", [⟨"B", none⟩]⟩ := by
  have h := remove_from_group_spec
    ⟨[("A", ⟨"A", "a"⟩)], [⟨"g1", "G", [⟨"A", some true⟩, ⟨"B", none⟩]⟩], "g1"⟩
    0 0 ⟨"g1", "G", [⟨"A", some true⟩, ⟨"B", none⟩]⟩ rfl
  exact ⟨h.1, h.2.1⟩

/-- Claim C3: deleting a group through the view layer is refused when only
one group remains, so a non-empty document keeps at least one group;
when more than one group exists the group at `idx` is removed and the
active-group pointer is re-pointed at the first remaining group. -/
theorem delete_group_spec (d : Doc) (idx : Nat) :
    (d.groups.length ≤ 1 → delete_group d idx = d) ∧
    (0 < d.groups.length → 0 < (delete_group d idx).groups.length) ∧
    (1 < d.groups.length →
      (delete_group d idx).groups = d.groups.eraseIdx idx) ∧
    (1 < d.groups.length → ∀ g, (delete_group d idx).groups.head? = some g →
      (delete_group d idx).active_group_id = g.id) := by
  by_cases hle : d.groups.length ≤ 1
  · refine ⟨fun _ => by simp [delete_group, hle], fun h0 => ?_, ?_, ?_⟩
    · simpa [delete_group, hle] using h0
    · intro h1; omega
    · intro h1; omega
  · have hgt : 1 < d.groups.length := Nat.lt_of_not_le hle
    have hde : delete_group d idx = delete_group_raw d idx := by
      simp [delete_group, hle]
    refine ⟨fun h => absurd h hle, fun _ => ?_, fun _ => ?_, fun _ => ?_⟩
    · rw [hde]
      show 0 < (d.groups.eraseIdx idx).length
      rw [List.length_eraseIdx]
      split <;> omega
    · rw [hde]; rfl
    · intro g hg
      rw [hde] at hg ⊢
      simp only [delete_group_raw] at hg ⊢
      rw [hg]

/-- Witness for C3: a two-group document; deleting index 0 re-points the
active pointer at the surviving group, and a one-group document refuses. -/
theorem delete_group_spec_witness :
    delete_group ⟨[], [⟨"g1", "G1", []⟩], "g1"⟩ 0 = ⟨[], [⟨"g1", "G1", []⟩], "g1"⟩ ∧
    (delete_group ⟨[], [⟨"g1", "G1", []⟩, ⟨"g2", "G2", []⟩], "g1"⟩ 0).groups =
      [⟨"g2", "G2", []⟩] ∧
    (delete_group ⟨[], [⟨"g1", "G1", []⟩, ⟨"g2", "G2", []⟩], "g1"⟩ 0).active_group_id =
      "g2" := by
  refine ⟨(delete_group_spec ⟨[], [⟨"g1", "G1", []⟩], "g1"⟩ 0).1 (by decide), ?_, ?_⟩
  · exact (delete_group_spec ⟨[], [⟨"g1", "G1", []⟩, ⟨"g2", "G2", []⟩], "g1"⟩ 0).2.2.1
      (by decide)
  · exact (delete_group_spec ⟨[], [⟨"g1", "G1", []⟩, ⟨"g2", "G2", []⟩], "g1"⟩ 0).2.2.2
      (by decide) ⟨"g2", "G2", []⟩ (by decide)

lemma load_data_fallback_eq (gid : String) (d : Disk) (h : fallbackDisk d) :
    load_data gid d = fresh_data gid := by
  cases d with
  | missing => rfl
  | unreadable => rfl
  | parsed v =>
    cases v with
    | obj fields =>
      have hnone : fields.lookup "groups" = none := h
      simp [load_data, hnone]
    | null => rfl
    | bool b => rfl
    | num n => rfl
    | str s => rfl
    | arr elems => rfl

/-- Claim C1: on every fallback disk state — missing file, unreadable or
corrupt JSON, or a parsed value that is not a dict or lacks the required
`"groups"` key — `load_data` returns the freshly initialized document:
exactly one group, bearing the non-empty default name, an empty `apps`
registry, and an empty entry list.  (`load_data` is a total function of
the disk state, so no state makes it raise.) -/
theorem load_data_fallback_fresh (gid : String) (d : Disk) (h : fallbackDisk d) :
    load_data gid d = fresh_data gid ∧
    jget (load_data gid d) "groups" =
      some (.arr [new_group_json gid DEFAULT_GROUP_NAME]) ∧
    jget (load_data gid d) "apps" = some (.obj []) ∧
    jget (new_group_json gid DEFAULT_GROUP_NAME) "name" =
      some (.str DEFAULT_GROUP_NAME) ∧
    jget (new_group_json gid DEFAULT_GROUP_NAME) "entries" = some (.arr []) ∧
    DEFAULT_GROUP_NAME ≠ "" := by
  have he := load_data_fallback_eq gid d h
  rw [he]
  exact ⟨rfl, rfl, rfl, rfl, rfl, by decide⟩

/-- Witness for C1: loading a missing data file. -/
theorem load_data_fallback_fresh_witness :
    load_data "uuid-1" Disk.missing = fresh_data "uuid-1" ∧
    jget (load_data "uuid-1" Disk.missing) "groups" =
      some (.arr [new_group_json "uuid-1" DEFAULT_GROUP_NAME]) ∧
    jget (load_data "uuid-1" Disk.missing) "apps" = some (.obj []) :=
  ⟨(load_data_fallback_fresh "uuid-1" Disk.missing trivial).1,
   (load_data_fallback_fresh "uuid-1" Disk.missing trivial).2.1,
   (load_data_fallback_fresh "uuid-1" Disk.missing trivial).2.2.1⟩

/-- Claim C10: whenever `load_data` falls back to the freshly initialized
document, its `active_group_id` equals the `id` of its single group, so
the active-group pointer refers to an existing group. -/
theorem fresh_active_group_points_at_group (gid : String) (d : Disk)
    (h : fallbackDisk d) :
    jget (load_data gid d) "active_group_id" = some (.str gid) ∧
    jget (load_data gid d) "groups" =
      some (.arr [new_group_json gid DEFAULT_GROUP_NAME]) ∧
    jget (new_group_json gid DEFAULT_GROUP_NAME) "id" = some (.str gid) := by
  cases d with
  | missing => exact ⟨rfl, rfl, rfl⟩
  | unreadable => exact ⟨rfl, rfl, rfl⟩
  | parsed v =>
    cases v with
    | obj fields =>
      have hnone : fields.lookup "groups" = none := h
      have he : load_data gid (.parsed (.obj fields)) = fresh_data gid := by
        simp [load_data, hnone]
      rw [he]
      exact ⟨rfl, rfl, rfl⟩
    | null => exact ⟨rfl, rfl, rfl⟩
    | bool b => exact ⟨rfl, rfl, rfl⟩
    | num n => exact ⟨rfl, rfl, rfl⟩
    | str s => exact ⟨rfl, rfl, rfl⟩
    | arr elems => exact ⟨rfl, rfl, rfl⟩

/-- Witness for C10: loading a corrupt data file. -/
theorem fresh_active_group_points_at_group_witness :
    jget (load_data "uuid-2" Disk.unreadable) "active_group_id" =
      some (.str "uuid-2") ∧
    jget (new_group_json "uuid-2" DEFAULT_GROUP_NAME) "id" =
      some (.str "uuid-2") :=
  ⟨(fresh_active_group_points_at_group "uuid-2" Disk.unreadable trivial).1,
   (fresh_active_group_points_at_group "uuid-2" Disk.unreadable trivial).2.2⟩

/-- Claim C8: an entry whose stored record lacks the `enabled` key is
treated as enabled by every reader of the flag: `populate` renders it
without the disabled marker and stores `enabled = True` in the item
data; substituting an explicit `True` changes nothing anywhere; the
status enabled-count counts it; toggling sets the flag to `False`; and
the enabled filters of group launch and all-groups launch include it. -/
theorem missing_enabled_treated_enabled (apps : Apps) (e : Entry)
    (h : e.enabled = none) :
    renderEntry apps e = (nameForRender apps e.path, true) ∧
    renderEntry apps e = renderEntry apps { e with enabled := some true } ∧
    (∀ i n es₁ es₂, enabledCount ⟨i, n, es₁ ++ e :: es₂⟩ =
      enabledCount ⟨i, n, es₁⟩ + 1 + enabledCount ⟨i, n, es₂⟩) ∧
    (∀ (g : Group) (idx : Nat), g.entries.get? idx = some e →
      (toggle_entry g idx).entries.get? idx = some { e with enabled := some false }) ∧
    (∀ i n es₁ es₂, currentGroupPaths ⟨i, n, es₁ ++ e :: es₂⟩ =
      currentGroupPaths ⟨i, n, es₁⟩ ++ e.path :: currentGroupPaths ⟨i, n, es₂⟩) ∧
    (∀ (seen : List String) (rest : List Entry), seen.contains e.path = false →
      allGroupsPathsAux seen (e :: rest) =
        e.path :: allGroupsPathsAux (e.path :: seen) rest) := by
  refine ⟨?_, ?_, ?_, ?_, ?_, ?_⟩
  · simp [renderEntry, h]
  · simp [renderEntry, h]
  · intro i n es₁ es₂
    simp [enabledCount, List.filter_append, h]
    omega
  · intro g idx hidx
    have hm := modifyIdx_get_self
      (fun e => { e with enabled := some (!(e.enabled.getD true)) }) hidx
    show (modifyIdx g.entries idx
      (fun e => { e with enabled := some (!(e.enabled.getD true)) })).get? idx = _
    rw [hm]
    simp [h]
  · intro i n es₁ es₂
    simp [currentGroupPaths, List.filter_append, h]
  · intro seen rest hseen
    simp only [List.contains, List.elem_eq_mem, decide_eq_false_iff_not] at hseen
    simp [allGroupsPathsAux, h, hseen]

/-- Witness for C8: a concrete entry with no `enabled` key. -/
theorem missing_enabled_treated_enabled_witness :
    renderEntry [] ⟨"A", none⟩ = (nameForRender [] "A", true) ∧
    (toggle_entry ⟨"g1", "G", [⟨"A", none⟩]⟩ 0).entries.get? 0 =
      some ⟨"A", some false⟩ ∧
    enabledCount ⟨"g1", "G", [] ++ (⟨"A", none⟩ : Entry) :: []⟩ =
      enabledCount ⟨"g1", "G", []⟩ + 1 + enabledCount ⟨"g1", "G", []⟩ :=
  ⟨(missing_enabled_treated_enabled [] ⟨"A", none⟩ rfl).1,
   (missing_enabled_treated_enabled [] ⟨"A", none⟩ rfl).2.2.2.1
     ⟨"g1", "G", [⟨"A", none⟩]⟩ 0 rfl,
   (missing_enabled_treated_enabled [] ⟨"A", none⟩ rfl).2.2.1 "g1" "G" [] []⟩

/-- The per-group invariant of Claim C2: no two entries share a path. -/
def groupNodup (g : Group) : Prop := (g.entries.map (fun e => e.path)).Nodup

lemma contains_of_mem {l : List String} {q : String} (hq : q ∈ l) :
    l.contains q = true := by
  simpa [List.contains, List.elem_eq_mem] using hq

lemma dropAux_skip_all (paths : List String) :
    ∀ (apps : Apps) (entries : List Entry) (seen : List String),
      (∀ p ∈ paths, seen.contains p = true) →
      (dropAux apps entries seen paths).2 = entries := by
  induction paths with
  | nil => intro apps entries seen _; rfl
  | cons p rest ih =>
    intro apps entries seen hall
    have hp : seen.contains p = true := hall p (List.mem_cons_self p rest)
    simp only [dropAux, hp, if_true]
    exact ih _ entries seen (fun q hq => hall q (List.mem_cons_of_mem p hq))

lemma dropAux_nodup (paths : List String) :
    ∀ (apps : Apps) (entries : List Entry) (seen : List String),
      (entries.map (fun e => e.path)).Nodup →
      (∀ q ∈ entries.map (fun e => e.path), seen.contains q = true) →
      ((dropAux apps entries seen paths).2.map (fun e => e.path)).Nodup := by
  induction paths with
  | nil => intro apps entries seen hnd _; exact hnd
  | cons p rest ih =>
    intro apps entries seen hnd hsub
    cases hp : seen.contains p with
    | true =>
      simp only [dropAux, hp, if_true]
      exact ih _ entries seen hnd hsub
    | false =>
      simp only [dropAux, hp, if_false]
      apply ih
      · rw [List.map_append, List.nodup_append]
        refine ⟨hnd, List.nodup_singleton p, ?_⟩
        intro a ha hb
        rw [show (([⟨p, some true⟩] : List Entry).map (fun e => e.path)) = [p] from rfl,
          List.mem_singleton] at hb
        subst hb
        rw [hsub a ha] at hp
        exact Bool.noConfusion hp
      · intro q hq
        rw [List.map_append, List.mem_append] at hq
        rcases hq with h1 | h2
        · rw [List.contains_cons, hsub q h1, Bool.or_true]
        · rw [show (([⟨p, some true⟩] : List Entry).map (fun e => e.path)) = [p] from rfl,
            List.mem_singleton] at h2
          subst h2
          simp [List.contains_cons]

lemma on_files_dropped_nodup (apps : Apps) (g : Group) (paths : List String)
    (h : groupNodup g) : groupNodup (on_files_dropped apps g paths).2 := by
  show ((dropAux apps g.entries (g.entries.map (fun e => e.path)) paths).2.map
    (fun e => e.path)).Nodup
  exact dropAux_nodup paths apps g.entries _ h (fun q hq => contains_of_mem hq)

lemma menu_add_nodup (g : Group) (p : String) (h : groupNodup g) :
    groupNodup (menu_add_to_group g p) := by
  unfold menu_add_to_group
  cases hany : g.entries.any (fun e => e.path = p) with
  | true => exact h
  | false =>
    show ((g.entries ++ ([⟨p, some true⟩] : List Entry)).map (fun e => e.path)).Nodup
    rw [List.map_append, List.nodup_append]
    refine ⟨h, List.nodup_singleton p, ?_⟩
    intro a ha hb
    rw [show (([⟨p, some true⟩] : List Entry).map (fun e => e.path)) = [p] from rfl,
      List.mem_singleton] at hb
    subst hb
    rw [List.any_eq_false] at hany
    rw [List.mem_map] at ha
    rcases ha with ⟨e, he, hep⟩
    exact hany e he (by simpa using hep)

lemma applyAdd_nodup (d : Doc) (op : AddOp) (h : ∀ g ∈ d.groups, groupNodup g) :
    ∀ g ∈ (applyAdd d op).groups, groupNodup g := by
  cases op with
  | drop gi paths =>
    simp only [applyAdd]
    cases hg : d.groups.get? gi with
    | none => exact h
    | some g0 =>
      intro g hgmem
      simp only at hgmem
      rcases List.mem_or_eq_of_mem_set hgmem with hmem | heq
      · exact h g hmem
      · subst heq
        exact on_files_dropped_nodup d.apps g0 paths (h g0 (List.get?_mem hg))
  | menuAdd gi p =>
    simp only [applyAdd, modifyIdx]
    cases hg : d.groups.get? gi with
    | none => exact h
    | some g0 =>
      intro g hgmem
      simp only at hgmem
      rcases List.mem_or_eq_of_mem_set hgmem with hmem | heq
      · exact h g hmem
      · subst heq
        exact menu_add_nodup g0 p (h g0 (List.get?_mem hg))

lemma foldl_applyAdd_nodup (ops : List AddOp) :
    ∀ d : Doc, (∀ g ∈ d.groups, groupNodup g) →
      ∀ g ∈ (ops.foldl applyAdd d).groups, groupNodup g := by
  induction ops with
  | nil => intro d h; exact h
  | cons op rest ih => intro d h; exact ih _ (applyAdd_nodup d op h)

/-- Claim C2: adding an entry is a silent no-op when the path is already in
the target group (for the context-menu add, and for each dropped path
already present); when the path is absent the entry is appended; any
sequence of add operations preserves "no group holds two entries with
the same path"; and a context-menu add touches no other group, so the
same path can be added to two different groups independently. -/
theorem addEntry_spec :
    (∀ (g : Group) (p : String), g.entries.any (fun e => e.path = p) = true →
      menu_add_to_group g p = g) ∧
    (∀ (g : Group) (p : String), g.entries.any (fun e => e.path = p) = false →
      menu_add_to_group g p = { g with entries := g.entries ++ [⟨p, some true⟩] }) ∧
    (∀ (apps : Apps) (g : Group) (paths : List String),
      (∀ p ∈ paths, p ∈ g.entries.map (fun e => e.path)) →
      ((on_files_dropped apps g paths).2).entries = g.entries) ∧
    (∀ (d : Doc) (ops : List AddOp), (∀ g ∈ d.groups, groupNodup g) →
      ∀ g ∈ (ops.foldl applyAdd d).groups, groupNodup g) ∧
    (∀ (d : Doc) (gi : Nat) (p : String) (j : Nat), j ≠ gi →
      (applyAdd d (AddOp.menuAdd gi p)).groups.get? j = d.groups.get? j) := by
  refine ⟨?_, ?_, ?_, ?_, ?_⟩
  · intro g p hany
    simp [menu_add_to_group, hany]
  · intro g p hany
    simp [menu_add_to_group, add_to_group, hany]
  · intro apps g paths hall
    show (dropAux apps g.entries (g.entries.map (fun e => e.path)) paths).2 = g.entries
    exact dropAux_skip_all paths apps g.entries _
      (fun p hp => contains_of_mem (hall p hp))
  · exact fun d ops => foldl_applyAdd_nodup ops d
  · intro d gi p j hj
    show (modifyIdx d.groups gi (fun g => menu_add_to_group g p)).get? j = _
    exact modifyIdx_get_other _ _ _ hj

/-- Witness for C2: duplicate add is a no-op, fresh add appends, other
groups are untouched, and the nodup invariant holds after a concrete
operation sequence with a repeated path. -/
theorem addEntry_spec_witness :
    menu_add_to_group ⟨"g1", "G1", [⟨"A", some true⟩]⟩ "A" =
      ⟨"g1", "G1", [⟨"A", some true⟩]⟩ ∧
    menu_add_to_group ⟨"g2", "G2", [⟨"A", some true⟩]⟩ "B" =
      ⟨"g2", "G2", [⟨"A", some true⟩, ⟨"B", some true⟩]⟩ ∧
    (applyAdd ⟨[], [⟨"g1", "G1", []⟩, ⟨"g2", "G2", []⟩], "g1"⟩
        (AddOp.menuAdd 0 "A")).groups.get? 1 =
      some ⟨"g2", "G2", []⟩ ∧
    groupNodup ⟨"g1", "G1", [⟨"A", some true⟩]⟩ := by
  refine ⟨addEntry_spec.1 ⟨"g1", "G1", [⟨"A", some true⟩]⟩ "A" (by decide),
    addEntry_spec.2.1 ⟨"g2", "G2", [⟨"A", some true⟩]⟩ "B" (by decide), ?_, ?_⟩
  · exact (addEntry_spec.2.2.2.2 ⟨[], [⟨"g1", "G1", []⟩, ⟨"g2", "G2", []⟩], "g1"⟩
      0 "A" 1 (by decide)).trans (by decide)
  · exact addEntry_spec.2.2.2.1 ⟨[], [⟨"g1", "G1", []⟩], "g1"⟩
      [AddOp.drop 0 ["A", "A"], AddOp.menuAdd 0 "A"]
      (fun g hg => by
        rw [List.mem_singleton] at hg
        subst hg
        exact List.nodup_nil)
      ⟨"g1", "G1", [⟨"A", some true⟩]⟩ (by decide)

lemma dedupNotSeen_cons_mem {seen : List String} {p : String}
    (hp : seen.contains p = true) (rest : List String) :
    dedupNotSeen seen (p :: rest) = dedupNotSeen seen rest := by
  rw [show dedupNotSeen seen (p :: rest) =
    (if seen.contains p = true then dedupNotSeen seen rest
     else p :: dedupNotSeen (p :: seen) rest) from rfl, hp, if_pos rfl]

lemma dedupNotSeen_cons_not_mem {seen : List String} {p : String}
    (hp : seen.contains p = false) (rest : List String) :
    dedupNotSeen seen (p :: rest) = p :: dedupNotSeen (p :: seen) rest := by
  rw [show dedupNotSeen seen (p :: rest) =
    (if seen.contains p = true then dedupNotSeen seen rest
     else p :: dedupNotSeen (p :: seen) rest) from rfl, hp,
    if_neg (fun h => Bool.noConfusion h)]

lemma contains_eq_false_iff {l : List String} {q : String} :
    l.contains q = false ↔ q ∉ l := by
  simp [List.contains, List.elem_eq_mem]

lemma do_launch_aux_spec (launch : String → Option String) (apps : Apps) :
    ∀ (paths : List String) (launched : Nat) (failed : List String) (seen : List String),
      do_launch_aux launch apps launched failed seen paths =
        (launched + ((dedupNotSeen seen paths).filter (fun p => launch p = none)).length,
         failed ++ ((dedupNotSeen seen paths).filter (fun p => (launch p).isSome)).map
           (fun p => nameForLaunch apps p ++ ": " ++ ((launch p).getD "")),
         dedupNotSeen seen paths) := by
  intro paths
  induction paths with
  | nil => intro launched failed seen; simp [do_launch_aux, dedupNotSeen]
  | cons p rest ih =>
    intro launched failed seen
    cases hp : seen.contains p with
    | true =>
      rw [dedupNotSeen_cons_mem hp]
      simp only [do_launch_aux, hp, if_true]
      exact ih launched failed seen
    | false =>
      rw [dedupNotSeen_cons_not_mem hp]
      cases hl : launch p with
      | some err =>
        have ihx := ih launched (failed ++ [nameForLaunch apps p ++ ": " ++ err]) (p :: seen)
        simp only [do_launch_aux, hp, hl, ihx]
        simp [hl, List.filter_cons]
      | none =>
        have ihx := ih (launched + 1) failed (p :: seen)
        simp only [do_launch_aux, hp, hl, ihx]
        simp [hl, List.filter_cons]
        omega

lemma mem_dedupNotSeen : ∀ (l : List String) (seen : List String) (q : String),
    q ∈ dedupNotSeen seen l ↔ q ∈ l ∧ seen.contains q = false := by
  intro l
  induction l with
  | nil => intro seen q; simp [dedupNotSeen]
  | cons p rest ih =>
    intro seen q
    cases hp : seen.contains p with
    | true =>
      rw [dedupNotSeen_cons_mem hp, ih, List.mem_cons]
      constructor
      · rintro ⟨hq, hc⟩; exact ⟨Or.inr hq, hc⟩
      · rintro ⟨hq | hq, hc⟩
        · subst hq; rw [hp] at hc; exact Bool.noConfusion hc
        · exact ⟨hq, hc⟩
    | false =>
      rw [dedupNotSeen_cons_not_mem hp, List.mem_cons, ih, List.mem_cons]
      by_cases hqp : q = p
      · subst hqp
        have hp' := contains_eq_false_iff.mp hp
        simp [hp, hp']
      · have hcc : (p :: seen).contains q = seen.contains q := by
          rw [List.contains_cons]
          have hb : (q == p) = false := by simpa using hqp
          rw [hb, Bool.false_or]
        rw [hcc]
        constructor
        · rintro (h | ⟨hq, hc⟩)
          · exact absurd h hqp
          · exact ⟨Or.inr hq, hc⟩
        · rintro ⟨hq | hq, hc⟩
          · exact absurd hq hqp
          · exact Or.inr ⟨hq, hc⟩

lemma dedupNotSeen_nodup : ∀ (l : List String) (seen : List String),
    (dedupNotSeen seen l).Nodup := by
  intro l
  induction l with
  | nil => intro seen; exact List.nodup_nil
  | cons p rest ih =>
    intro seen
    cases hp : seen.contains p with
    | true => rw [dedupNotSeen_cons_mem hp]; exact ih seen
    | false =>
      rw [dedupNotSeen_cons_not_mem hp]
      refine List.nodup_cons.mpr ⟨?_, ih (p :: seen)⟩
      intro hmem
      have hc := ((mem_dedupNotSeen rest (p :: seen) p).mp hmem).2
      rw [List.contains_cons] at hc
      simp at hc

lemma dedupNotSeen_eq_dedupFS_filter : ∀ (l : List String) (seen : List String),
    dedupNotSeen seen l = (dedupFS l).filter (fun q => !(seen.contains q)) := by
  intro l
  induction l with
  | nil => intro seen; rfl
  | cons p rest ih =>
    intro seen
    cases hp : seen.contains p with
    | true =>
      rw [dedupNotSeen_cons_mem hp, ih seen]
      show _ = (p :: (dedupFS rest).filter (fun q => decide (q ≠ p))).filter
        (fun q => !(seen.contains q))
      rw [List.filter_cons]
      have hcond : (!(seen.contains p)) = false := by rw [hp]; rfl
      rw [hcond, if_neg (by simp), List.filter_filter]
      refine List.filter_congr ?_
      intro q hq
      by_cases hqp : q = p
      · subst hqp; rw [hp]; rfl
      · have hd : (decide (q ≠ p)) = true := by simpa using hqp
        rw [hd, Bool.and_true]
    | false =>
      rw [dedupNotSeen_cons_not_mem hp, ih (p :: seen)]
      show _ = (p :: (dedupFS rest).filter (fun q => decide (q ≠ p))).filter
        (fun q => !(seen.contains q))
      rw [List.filter_cons]
      have hcond : (!(seen.contains p)) = true := by rw [hp]; rfl
      rw [hcond, if_pos rfl, List.filter_filter]
      refine congrArg (p :: ·) (List.filter_congr ?_)
      intro q hq
      by_cases hqp : q = p
      · subst hqp
        simp [List.contains_cons]
      · have h1 : (q == p) = false := by simpa using hqp
        have h2 : (decide (q ≠ p)) = true := by simpa using hqp
        rw [List.contains_cons, h1, Bool.false_or, h2, Bool.and_true]

lemma do_launch_calls_eq (launch : String → Option String) (apps : Apps)
    (paths : List String) : do_launch_calls launch apps paths = dedupFS paths := by
  unfold do_launch_calls
  rw [do_launch_aux_spec]
  rw [dedupNotSeen_eq_dedupFS_filter]
  simp [List.contains]

/-- Claim C4: `_do_launch` de-duplicates its input by path preserving
first-seen order (`dedupFS`), invokes `launch_path` exactly once per
distinct path in that order (`do_launch_calls` is duplicate-free and
holds exactly the distinct input paths), keeps going after failures, and
returns the number of successful launches among the distinct paths
together with one `"name: err"` failure record per failed distinct path,
in order; on `["A", "A", "B"]` the underlying launch runs exactly twice,
for `"A"` then `"B"`. -/
theorem do_launch_spec (launch : String → Option String) (apps : Apps)
    (paths : List String) :
    do_launch_calls launch apps paths = dedupFS paths ∧
    (do_launch_calls launch apps paths).Nodup ∧
    (∀ p, p ∈ do_launch_calls launch apps paths ↔ p ∈ paths) ∧
    (do_launch launch apps paths).1 =
      ((dedupFS paths).filter (fun p => launch p = none)).length ∧
    (do_launch launch apps paths).2 =
      ((dedupFS paths).filter (fun p => (launch p).isSome)).map
        (fun p => nameForLaunch apps p ++ ": " ++ ((launch p).getD "")) ∧
    do_launch_calls launch apps ["A", "A", "B"] = ["A", "B"] := by
  refine ⟨do_launch_calls_eq launch apps paths, ?_, ?_, ?_, ?_,
    (do_launch_calls_eq launch apps ["A", "A", "B"]).trans (by decide)⟩
  · unfold do_launch_calls
    rw [do_launch_aux_spec]
    exact dedupNotSeen_nodup paths []
  · intro p
    unfold do_launch_calls
    rw [do_launch_aux_spec]
    rw [mem_dedupNotSeen]
    simp [List.contains]
  · unfold do_launch
    rw [do_launch_aux_spec]
    rw [dedupNotSeen_eq_dedupFS_filter]
    simp [List.contains]
  · unfold do_launch
    rw [do_launch_aux_spec]
    rw [dedupNotSeen_eq_dedupFS_filter]
    simp [List.contains]

example : dedupFS ["A", "A", "B"] = ["A", "B"] := by decide
example : stem "C:\\tools\\x.exe" = "x" := by decide
example : stem "archive.tar.gz" = "archive.tar" := by decide
example : register [] "a/b.exe" = [("a/b.exe", ⟨"a/b.exe", "b"⟩)] := by decide

end AppLauncher
